import Mathlib

/-!
Verification of the data-preparation core of `VersionDownloadChart.tsx`
(repository `rn-versions.github.io`).

The source file contains four algorithmic pieces, embedded here:

* `calculateDateTicks` / `fromDayStart` — the tick interval calculator;
* `transformToPercentage` — the percentage normalizer;
* `filterTopN` — the windowed top-N selector with zero-fill;
* the row-building loop of the `VersionDownloadChart` component — `pivot`.

Modelling conventions:

* JavaScript `number` timestamps are modelled as `Int` (ms since epoch) and
  counts as `ℚ` (exact arithmetic in place of IEEE doubles; the spec's
  numerical claim explicitly licenses the exact-rational reading).
* `new Date(d).setHours(0, 0, 0, 0)` truncates to the start of the local
  day; the local time zone is modelled as UTC (offset 0), i.e. flooring to
  a multiple of `dayDuration`.  JavaScript's `Math.floor` semantics on a
  real quotient is `Int.fdiv`.
* A JavaScript value that is `undefined` or a non-finite number (`NaN`,
  `±Infinity`) is modelled by `none` in an `Option`-typed field.
* JavaScript `Set` and `Map` iterate in insertion order; object property
  assignment overwrites in place; `Array.prototype.sort` is stable
  (modelled by `List.insertionSort`).  `[...keys].sort()` without a
  comparator compares the *string representations* of the numbers.
-/

/-- One (date, version, count) observation, the `HistoryPoint` of
`HistoryReader`.  `date` is a ms-since-epoch timestamp. -/
structure HistoryPoint where
  date : Int
  version : String
  count : ℚ
deriving DecidableEq, Repr

/-- `const dayDuration = 24 * 60 * 60 * 1000` (ms per day). -/
def dayDuration : Int := 24 * 60 * 60 * 1000

/-- `const weekDuration = 7 * dayDuration`, kept as a `Nat` because the
tick interval only ever grows by doubling from this positive start. -/
def weekDuration : Nat := 7 * (24 * 60 * 60 * 1000)

/-- `new Date(date).setHours(0, 0, 0, 0)` — start of the (UTC-modelled)
day containing `date`. -/
def dayStartOf (date : Int) : Int :=
  date.fdiv dayDuration * dayDuration

/-- `fromDayStart(date, duration)` from the source: start of the day of
`date` plus `duration`. -/
def fromDayStart (date : Int) (duration : Int) : Int :=
  dayStartOf date + duration

/-- One step list of the `while` loop
`while (Math.floor(dataDuration / tickInterval) > maxInteriorTicks) tickInterval *= 2`.
The loop is modelled with explicit fuel to keep the function structurally
recursive (hence kernel-computable); `growInterval` below supplies fuel
that is provably sufficient. -/
def growIntervalFuel : Nat → Int → Nat → Nat → Nat
  | 0, _, _, tickInterval => tickInterval
  | fuel + 1, dataDuration, maxInteriorTicks, tickInterval =>
    if (maxInteriorTicks : Int) < dataDuration.fdiv (tickInterval : Int) then
      growIntervalFuel fuel dataDuration maxInteriorTicks (tickInterval * 2)
    else
      tickInterval

/-- The doubling loop computing the tick interval: smallest power-of-two
multiple of `weekDuration` whose whole-interval count over `dataDuration`
is at most `maxInteriorTicks`.  Fuel `dataDuration.toNat + 1` suffices
(proved in `growIntervalFuel_spec`). -/
def growInterval (dataDuration : Int) (maxInteriorTicks : Nat) : Nat :=
  growIntervalFuel (dataDuration.toNat + 1) dataDuration maxInteriorTicks weekDuration

/-- The tick-collection loop of `calculateDateTicks`:
`for (const date of dates) if (date >= nextTick) { ticks.add(date); nextTick = fromDayStart(date, tickInterval); }`.
`ticks` is a JS `Set`, modelled as an insertion-ordered duplicate-free
list. -/
def scanTicks (tickInterval : Int) : List Int → Int → List Int → List Int
  | [], _, ticks => ticks
  | date :: rest, nextTick, ticks =>
    if nextTick ≤ date then
      scanTicks tickInterval rest (fromDayStart date tickInterval)
        (if date ∈ ticks then ticks else ticks ++ [date])
    else
      scanTicks tickInterval rest nextTick ticks

/-- `calculateDateTicks(dates, maxTicks)` from the source.  `dates[0]` and
`dates[dates.length - 1]` on an empty array are `undefined` (`none`), so
the result type is `List (Option Int)`.  In the `maxTicks >= 3` branch
with empty `dates`, `dataDuration` is `NaN`, the doubling loop exits at
once (`NaN > k` is false), the scan loop body never runs, and the
returned set holds exactly the single `undefined` first element; that
branch is written out as the `[]` case below. -/
def calculateDateTicks (dates : List Int) (maxTicks : Nat) : List (Option Int) :=
  let first := dates.head?
  let last := dates.getLast?
  if maxTicks = 0 then
    []
  else if maxTicks = 1 then
    [first]
  else if maxTicks = 2 then
    [first, last]
  else
    match dates with
    | [] => [none]
    | f :: rest =>
      let dataDuration := rest.getLastD f - f
      let tickInterval : Int := (growInterval dataDuration (maxTicks - 1) : Nat)
      (scanTicks tickInterval (f :: rest) (fromDayStart f tickInterval) [f]).map some

/-- Output point of `transformToPercentage`.  The `count` field is a JS
number that may be non-finite: dividing by a zero per-date total yields
`NaN` (for a zero numerator) or `±Infinity`, modelled as `none`. -/
structure PercentPoint where
  date : Int
  version : String
  count : Option ℚ
deriving DecidableEq, Repr

/-- The `totalCountByDate` record built by the first loop of
`transformToPercentage`: the entry stored under key `date` is the sum of
`count` over all points carrying that date (accumulated in list order,
starting from the `?? 0` default). -/
def totalCountByDate (points : List HistoryPoint) (date : Int) : ℚ :=
  points.foldl (fun prevTotal point =>
    if point.date = date then prevTotal + point.count else prevTotal) 0

/-- `transformToPercentage(points)` from the source: each point is copied
with `count` replaced by `point.count / totalCountByDate[point.date]`.
A zero denominator makes the JS quotient non-finite (`none` here). -/
def transformToPercentage (points : List HistoryPoint) : List PercentPoint :=
  points.map (fun point =>
    { date := point.date
      version := point.version
      count :=
        if totalCountByDate points point.date = 0 then none
        else some (point.count / totalCountByDate points point.date) })

/-- In-place update step of the `versionsInWindow` accumulation loop:
`find` the entry for `version` and add to its count, else `push` a fresh
entry at the end. -/
def addVersionCount : List (String × ℚ) → String → ℚ → List (String × ℚ)
  | [], version, newCount => [(version, newCount)]
  | (v, c) :: rest, version, newCount =>
    if v = version then (v, c + newCount) :: rest
    else (v, c) :: addVersionCount rest version newCount

/-- The `versionsInWindow` accumulator of `filterTopN`: for every point
with `date >= earliestAllowableDate`, add
`point.date < earliestAllowableDate ? 0 : point.count` (the conditional
is kept from the source even though it is always the count here) to that
version's running total. -/
def versionsInWindowOf (historyPoints : List HistoryPoint)
    (earliestAllowableDate : Int) : List (String × ℚ) :=
  historyPoints.foldl (fun acc point =>
    if earliestAllowableDate ≤ point.date then
      addVersionCount acc point.version
        (if point.date < earliestAllowableDate then 0 else point.count)
    else acc) []

/-- JS `array.slice(relStart)` for an integer argument: a negative start
counts from the end (clamped at 0), a non-negative start drops that many
leading elements (clamped at the length).  Both clampings coincide with
`Int.toNat` composed with `List.drop`. -/
def jsSliceFrom (l : List α) (relStart : Int) : List α :=
  if relStart < 0 then l.drop (l.length + relStart).toNat
  else l.drop relStart.toNat

/-- Comparison used by `versionsInWindow.sort((a, b) => a.count - b.count)`:
ascending by accumulated count.  `Array.prototype.sort` is stable, as is
`List.insertionSort`. -/
def countLe (a b : String × ℚ) : Prop := a.2 ≤ b.2

instance : DecidableRel countLe := fun a b => inferInstanceAs (Decidable (a.2 ≤ b.2))

instance : IsTotal (String × ℚ) countLe := ⟨fun a b => le_total a.2 b.2⟩

instance : IsTrans (String × ℚ) countLe := ⟨fun _ _ _ h h' => le_trans h h'⟩

/-- `topVersions` of `filterTopN`: sort the per-version window totals
ascending by count, take the last `n` entries (`slice(-n)`), keep the
version labels. -/
def topVersionsOf (historyPoints : List HistoryPoint) (n : Int)
    (earliestAllowableDate : Int) : List String :=
  (jsSliceFrom (List.insertionSort countLe
      (versionsInWindowOf historyPoints earliestAllowableDate)) (-n)).map Prod.fst

/-- `topVersionsInOrder` of `filterTopN`: the kept versions listed in
first-occurrence order of the original point list. -/
def topVersionsInOrderOf (historyPoints : List HistoryPoint)
    (topVersions : List String) : List String :=
  historyPoints.foldl (fun acc point =>
    if point.version ∈ topVersions ∧ point.version ∉ acc then acc ++ [point.version]
    else acc) []

/-- Date of the last point, `historyPoints[historyPoints.length - 1].date`
(only meaningful on nonempty input, which `filterTopN` checks first). -/
def latestDateOf (historyPoints : List HistoryPoint) : Int :=
  ((historyPoints.getLast?).map HistoryPoint.date).getD 0

/-- `earliestAllowableDate = latestDay - windowInDays * 24 * 60 * 60 * 1000`
where `latestDay = new Date(latestDate).setHours(0, 0, 0, 0)`. -/
def earliestAllowableOf (historyPoints : List HistoryPoint)
    (windowInDays : Int) : Int :=
  dayStartOf (latestDateOf historyPoints) - windowInDays * dayDuration

/-- `filteredPoints` of `filterTopN`: the original points whose version
is kept. -/
def filteredPointsOf (historyPoints : List HistoryPoint)
    (topVersions : List String) : List HistoryPoint :=
  historyPoints.filter (fun point => point.version ∈ topVersions)

/-- Key-insertion order of the `pointsByDate` map of `filterTopN`: every
distinct date of the filtered points, first-seen order. -/
def datesInOrderOf (filteredPoints : List HistoryPoint) : List Int :=
  filteredPoints.foldl (fun acc point =>
    if point.date ∈ acc then acc else acc ++ [point.date]) []

/-- Lexicographic comparison of character lists by code point, the order
JS string comparison uses (UTF-16 code units; identical for the ASCII
digit strings at hand). -/
def charListLe : List Char → List Char → Bool
  | [], _ => true
  | _ :: _, [] => false
  | c :: cs, d :: ds => if c = d then charListLe cs ds else decide (c < d)

/-- Comparison used by `[...pointsByDate.keys()].sort()`: JS `sort`
without a comparator compares the decimal string representations of the
numeric keys. -/
def dateStrLe (a b : Int) : Prop :=
  charListLe (toString a).data (toString b).data = true

instance : DecidableRel dateStrLe :=
  fun _ _ => inferInstanceAs (Decidable (_ = true))

lemma charListLe_total : ∀ x y : List Char,
    charListLe x y = true ∨ charListLe y x = true := by
  intro x
  induction x with
  | nil => intro y; exact Or.inl rfl
  | cons c cs ih =>
    intro y
    match y with
    | [] => exact Or.inr rfl
    | d :: ds =>
      by_cases hcd : c = d
      · subst hcd
        rw [charListLe, charListLe, if_pos rfl, if_pos rfl]
        exact ih ds
      · rw [charListLe, charListLe, if_neg hcd, if_neg (Ne.symm hcd)]
        rcases lt_trichotomy c d with h | h | h
        · exact Or.inl (by simp [h])
        · exact absurd h hcd
        · exact Or.inr (by simp [h])

lemma charListLe_trans : ∀ x y z : List Char,
    charListLe x y = true → charListLe y z = true → charListLe x z = true := by
  intro x
  induction x with
  | nil => intro y z _ _; rfl
  | cons c cs ih =>
    intro y z h1 h2
    match y, z with
    | [], _ => exact absurd h1 (by rw [charListLe]; simp)
    | _ :: _, [] => exact absurd h2 (by rw [charListLe]; simp)
    | d :: ds, e :: es =>
      rw [charListLe] at h1 h2 ⊢
      by_cases hcd : c = d <;> by_cases hde : d = e
      · subst hcd; subst hde
        rw [if_pos rfl] at h1 h2 ⊢
        exact ih ds es h1 h2
      · subst hcd
        rw [if_pos rfl] at h1
        rw [if_neg hde] at h2 ⊢
        exact h2
      · subst hde
        rw [if_neg hcd] at h1 ⊢
        exact h1
      · rw [if_neg hcd] at h1
        rw [if_neg hde] at h2
        rw [decide_eq_true_eq] at h1 h2
        have hce : c < e := lt_trans h1 h2
        rw [if_neg (ne_of_lt hce)]
        simp [hce]

lemma charListLe_refl : ∀ x : List Char, charListLe x x = true := by
  intro x
  induction x with
  | nil => rfl
  | cons c cs ih => rw [charListLe, if_pos rfl]; exact ih

lemma dateStrLe_refl (d : Int) : dateStrLe d d := charListLe_refl _

instance : IsTotal Int dateStrLe := ⟨fun _ _ => charListLe_total _ _⟩

instance : IsTrans Int dateStrLe := ⟨fun _ _ _ h h' => charListLe_trans _ _ _ h h'⟩

/-- `datesAscending` of `filterTopN`. -/
def datesAscendingOf (filteredPoints : List HistoryPoint) : List Int :=
  List.insertionSort dateStrLe (datesInOrderOf filteredPoints)

/-- One date of the zero-fill loop of `filterTopN`: for each kept version
(in `topVersionsInOrder` order), either the first point of that date and
version from `pointsByDate.get(date)` (spread back with the same date),
or a fresh zero-count point. -/
def zeroFillRow (filteredPoints : List HistoryPoint)
    (topVersionsInOrder : List String) (date : Int) : List HistoryPoint :=
  topVersionsInOrder.map (fun topVersion =>
    match (filteredPoints.filter (fun p => decide (p.date = date))).find?
        (fun p => p.version == topVersion) with
    | some existingPoint =>
      { date := date, version := existingPoint.version, count := existingPoint.count }
    | none => { date := date, version := topVersion, count := 0 })

/-- `filterTopN(historyPoints, n, windowInDays)` from the source,
assembled from the named pieces above.  Dates earlier than
`earliestAllowableDate` are skipped by the `continue` of the zero-fill
loop. -/
def filterTopN (historyPoints : List HistoryPoint) (n : Int)
    (windowInDays : Int) : List HistoryPoint :=
  match historyPoints with
  | [] => []
  | _ :: _ =>
    let earliestAllowableDate := earliestAllowableOf historyPoints windowInDays
    let topVersions := topVersionsOf historyPoints n earliestAllowableDate
    let topVersionsInOrder := topVersionsInOrderOf historyPoints topVersions
    let filteredPoints := filteredPointsOf historyPoints topVersions
    ((datesAscendingOf filteredPoints).filter
        (fun date => !decide (date < earliestAllowableDate))).flatMap
      (zeroFillRow filteredPoints topVersionsInOrder)

/-- The kept versions of one `filterTopN` run, in display order. -/
def keptVersionsOf (historyPoints : List HistoryPoint) (n : Int)
    (windowInDays : Int) : List String :=
  topVersionsInOrderOf historyPoints
    (topVersionsOf historyPoints n (earliestAllowableOf historyPoints windowInDays))

/-- `allVersionsArr = [...new Set(datapoints.map(p => p.version))]`:
distinct versions in first-seen order. -/
def allVersionsArr (datapoints : List HistoryPoint) : List String :=
  datapoints.foldl (fun acc point =>
    if point.version ∈ acc then acc else acc ++ [point.version]) []

/-- One row of the chart `data` array:
`{ date: number, versionCounts: Record<string, number> }`.  The record is
modelled as an assoc list in property-insertion order. -/
structure ChartRow where
  date : Int
  versionCounts : List (String × ℚ)
deriving DecidableEq, Repr

/-- JS object property assignment `counts[version] = count`: overwrite in
place if the key exists, else append it. -/
def setVersionCount : List (String × ℚ) → String → ℚ → List (String × ℚ)
  | [], version, count => [(version, count)]
  | (v, c) :: rest, version, count =>
    if v = version then (v, count) :: rest
    else (v, c) :: setVersionCount rest version count

/-- Body of the row-building loop: `data.find(p => p.date === date)`
(first match), then either set `versionCounts[version]` on it or `push` a
fresh one-entry row at the end. -/
def addPointToData : List ChartRow → String → Int → ℚ → List ChartRow
  | [], version, date, count => [⟨date, [(version, count)]⟩]
  | row :: rest, version, date, count =>
    if row.date = date then
      ⟨row.date, setVersionCount row.versionCounts version count⟩ :: rest
    else
      row :: addPointToData rest version date count

/-- The row-building double loop of the `VersionDownloadChart` component
(`for (const version of allVersionsArr) for (const measurePoint of datapoints) ...`),
the `pivot` stage of the spec. -/
def pivot (datapoints : List HistoryPoint) : List ChartRow :=
  (allVersionsArr datapoints).foldl (fun data version =>
    datapoints.foldl (fun data measurePoint =>
      if measurePoint.version = version then
        addPointToData data version measurePoint.date measurePoint.count
      else data) data) []

/-- Reading a row back: the first row whose `date` matches. -/
def findRow (data : List ChartRow) (date : Int) : Option ChartRow :=
  data.find? (fun row => decide (row.date = date))

/-- Reading `versionCounts[version]` of a row. -/
def getVersionCount (counts : List (String × ℚ)) (version : String) : Option ℚ :=
  (counts.find? (fun entry => entry.1 == version)).map Prod.snd

/-- The count the pivoted data holds for a (date, version) pair, if any. -/
def rowCount (data : List ChartRow) (date : Int) (version : String) : Option ℚ :=
  (findRow data date).bind (fun row => getVersionCount row.versionCounts version)

/-!
## C1 — zero-denominator behavior of the percentage normalizer

The spec requires the normalizer to clamp a zero-total date to a defined
numeric value.  The code divides by the zero total, producing `NaN`
(`none`), on the spec's own concrete scenario.
-/

/-- C1: on the spec's concrete scenario
`[{date:1,"a",count:0},{date:1,"b",count:0}]` the code returns `NaN`
(non-finite, `none`) for both counts instead of a defined numeric
fallback: the zero per-date total is divided through, not clamped. -/
theorem transformToPercentage_nan_on_zero_total :
    transformToPercentage [⟨1, "a", 0⟩, ⟨1, "b", 0⟩] =
      [⟨1, "a", none⟩, ⟨1, "b", none⟩] := by
  norm_num [transformToPercentage, totalCountByDate]

/-!
## C2 — base cases of the tick calculator
-/

/-- The last element of a nonempty list, phrased through `getLastD`. -/
lemma cons_getLast? (f : α) (rest : List α) :
    (f :: rest).getLast? = some (rest.getLastD f) := by
  induction rest generalizing f with
  | nil => rfl
  | cons g t ih => simp [List.getLast?_cons_cons, ih]

/-- C2 counterexample: the claim says `calculateTicks([], k)` is empty for
every `k`, but for `maxTicks = 1` the code returns the one-element list
holding `dates[0]`, which is `undefined` (`[none]`), not the empty
list. -/
theorem calculateDateTicks_empty_cex : calculateDateTicks [] 1 ≠ [] := by
  decide

/-- C2 amended: `maxTicks = 0` yields the empty list for every input; on
an *empty* date list any `maxTicks ≥ 1` yields a list of `undefined`
entries (`[none, none]` for `maxTicks = 2`, `[none]` otherwise); on a
nonempty list, `maxTicks = 1` yields exactly `[dates[0]]` and
`maxTicks = 2` yields exactly `[dates[0], dates[last]]`. -/
theorem calculateDateTicks_base_cases (k : Nat) (f : Int) (rest : List Int) :
    calculateDateTicks [] k =
        (if k = 0 then [] else if k = 2 then [none, none] else [none])
      ∧ calculateDateTicks (f :: rest) 0 = []
      ∧ calculateDateTicks (f :: rest) 1 = [some f]
      ∧ calculateDateTicks (f :: rest) 2 = [some f, some (rest.getLastD f)] := by
  refine ⟨?_, ?_, ?_, ?_⟩
  · rcases k with _ | _ | _ | k <;> rfl
  · rfl
  · rfl
  · show [(f :: rest).head?, (f :: rest).getLast?] = _
    simp [cons_getLast?]

/-!
## C10 — the percentage normalizer only rewrites the count field
-/

/-- C10: `transformToPercentage` returns one output point per input point
in the same order, preserving `date` and `version` pointwise; only the
`count` field changes (the embedding is pure, so the input list itself is
untouched by construction). -/
theorem transformToPercentage_preserves_shape (points : List HistoryPoint) :
    (transformToPercentage points).length = points.length
      ∧ (transformToPercentage points).map PercentPoint.date =
          points.map HistoryPoint.date
      ∧ (transformToPercentage points).map PercentPoint.version =
          points.map HistoryPoint.version := by
  refine ⟨by simp [transformToPercentage], ?_, ?_⟩ <;>
    simp [transformToPercentage, List.map_map, Function.comp]

/-!
## C9 — per-date percentage totals
-/

/-- Accumulator form of `totalCountByDate`. -/
lemma totalCountByDate_foldl (points : List HistoryPoint) (d : Int) (acc : ℚ) :
    points.foldl (fun prevTotal point =>
        if point.date = d then prevTotal + point.count else prevTotal) acc =
      acc + ((points.filter (fun p => decide (p.date = d))).map
        HistoryPoint.count).sum := by
  induction points generalizing acc with
  | nil => simp
  | cons p ps ih =>
    by_cases hd : p.date = d <;> simp [hd, ih, add_assoc]

/-- The per-date total is the sum of counts over the points of that
date. -/
lemma totalCountByDate_eq_sum (points : List HistoryPoint) (d : Int) :
    totalCountByDate points d =
      ((points.filter (fun p => decide (p.date = d))).map
        HistoryPoint.count).sum := by
  simpa using totalCountByDate_foldl points d 0

/-- C9: for every point list and every date whose total is nonzero, the
counts `transformToPercentage` produces for that date's points are all
defined and sum to exactly 1 (exact rational arithmetic). -/
theorem transformToPercentage_sums_to_one (points : List HistoryPoint) (d : Int)
    (h : totalCountByDate points d ≠ 0) :
    (((transformToPercentage points).filter (fun q => decide (q.date = d))).filterMap
        PercentPoint.count).sum = 1
      ∧ ∀ q ∈ (transformToPercentage points).filter (fun q => decide (q.date = d)),
          q.count.isSome := by
  set T := totalCountByDate points d with hT
  set f : HistoryPoint → PercentPoint := fun point =>
    { date := point.date
      version := point.version
      count :=
        if totalCountByDate points point.date = 0 then none
        else some (point.count / totalCountByDate points point.date) } with hf
  have hmapfilter :
      (transformToPercentage points).filter (fun q => decide (q.date = d)) =
        (points.filter (fun p => decide (p.date = d))).map f := by
    rw [transformToPercentage, ← hf, List.filter_map]
    rfl
  have hdates : ∀ p ∈ points.filter (fun p => decide (p.date = d)), p.date = d := by
    intro p hp
    simpa using (List.mem_filter.mp hp).2
  constructor
  · rw [hmapfilter]
    have key : ∀ l : List HistoryPoint, (∀ p ∈ l, p.date = d) →
        ((l.map f).filterMap PercentPoint.count) =
          l.map (fun p => p.count / T) := by
      intro l
      induction l with
      | nil => intro _; rfl
      | cons p ps ih =>
        intro hl
        have hpd : p.date = d := hl p (by simp)
        have hps : ∀ q ∈ ps, q.date = d := fun q hq => hl q (by simp [hq])
        simp only [List.map_cons, List.filterMap_cons, hf, hpd, ← hT]
        rw [if_neg h]
        simpa using ih hps
    rw [key _ hdates]
    have hsum : (points.filter (fun p => decide (p.date = d))).map
        (fun p => p.count / T) =
        (points.filter (fun p => decide (p.date = d))).map
          (fun p => p.count * T⁻¹) := by
      simp [div_eq_mul_inv]
    rw [hsum, List.sum_map_mul_right, ← totalCountByDate_eq_sum points d, ← hT,
      mul_inv_cancel₀ h]
  · intro q hq
    rw [hmapfilter] at hq
    rcases List.mem_map.mp hq with ⟨p, hp, rfl⟩
    have hpd : p.date = d := hdates p hp
    simp [hf, hpd, ← hT, h]

/-- Witness for C9 at a concrete input: two points on date 1 with counts
1 and 3 give percentages summing to 1 (1/4 and 3/4). -/
theorem transformToPercentage_sums_to_one_witness :
    (((transformToPercentage [⟨1, "a", 1⟩, ⟨1, "b", 3⟩]).filter
        (fun q => decide (q.date = 1))).filterMap PercentPoint.count).sum = 1
      ∧ ∀ q ∈ (transformToPercentage [⟨1, "a", 1⟩, ⟨1, "b", 3⟩]).filter
          (fun q => decide (q.date = 1)), q.count.isSome :=
  transformToPercentage_sums_to_one [⟨1, "a", 1⟩, ⟨1, "b", 3⟩] 1
    (by norm_num [totalCountByDate])

/-!
## Day arithmetic for the tick calculator
-/

lemma dayDuration_pos : 0 < dayDuration := by norm_num [dayDuration]

/-- Start of day in terms of euclidean division. -/
lemma dayStartOf_eq_ediv (d : Int) : dayStartOf d = d / dayDuration * dayDuration := by
  rw [dayStartOf, Int.fdiv_eq_ediv _ (le_of_lt dayDuration_pos)]

/-- Truncating to the start of the day never moves forward. -/
lemma dayStartOf_le (d : Int) : dayStartOf d ≤ d := by
  rw [dayStartOf_eq_ediv]
  exact Int.ediv_mul_le d (ne_of_gt dayDuration_pos)

/-- A date is less than a day past its own day start. -/
lemma lt_dayStartOf_add (d : Int) : d < dayStartOf d + dayDuration := by
  rw [dayStartOf_eq_ediv]
  have h := Int.emod_lt_of_pos d dayDuration_pos
  have hdef := Int.emod_def d dayDuration
  nlinarith [Int.emod_nonneg d (ne_of_gt dayDuration_pos)]

/-- Day starts are multiples of a day. -/
lemma dayDuration_dvd_dayStartOf (d : Int) : dayDuration ∣ dayStartOf d := by
  rw [dayStartOf_eq_ediv]
  exact dvd_mul_left dayDuration (d / dayDuration)

/-- A multiple of a day below `d` is below the day start of `d`. -/
lemma le_dayStartOf_of_dvd {a d : Int} (hdvd : dayDuration ∣ a) (h : a ≤ d) :
    a ≤ dayStartOf d := by
  rcases hdvd with ⟨t, rfl⟩
  rw [dayStartOf_eq_ediv]
  have ht : t ≤ d / dayDuration :=
    (Int.le_ediv_iff_mul_le dayDuration_pos).mpr (by linarith [mul_comm dayDuration t])
  calc dayDuration * t = t * dayDuration := mul_comm _ _
    _ ≤ d / dayDuration * dayDuration :=
        mul_le_mul_of_nonneg_right ht (le_of_lt dayDuration_pos)

/-!
## The doubling loop
-/

/-- The doubling loop never shrinks the interval. -/
lemma le_growIntervalFuel (fuel : Nat) (dataDuration : Int) (m tickInterval : Nat) :
    tickInterval ≤ growIntervalFuel fuel dataDuration m tickInterval := by
  induction fuel generalizing tickInterval with
  | zero => exact le_refl _
  | succ fuel ih =>
    rw [growIntervalFuel]
    split
    · exact le_trans (Nat.le_mul_of_pos_right _ (by norm_num)) (ih (tickInterval * 2))
    · exact le_refl _

/-- Divisors of the starting interval divide the final interval. -/
lemma dvd_growIntervalFuel (fuel : Nat) (dataDuration : Int) (m tickInterval k : Nat)
    (h : k ∣ tickInterval) :
    k ∣ growIntervalFuel fuel dataDuration m tickInterval := by
  induction fuel generalizing tickInterval with
  | zero => exact h
  | succ fuel ih =>
    rw [growIntervalFuel]
    split
    · exact ih _ (h.mul_right 2)
    · exact h

/-- With enough fuel the loop establishes its exit condition: the final
interval covers `dataDuration` in at most `m` whole steps. -/
lemma growIntervalFuel_spec (fuel : Nat) (dataDuration : Int) (m tickInterval : Nat)
    (hfit : dataDuration.toNat < tickInterval * 2 ^ fuel) :
    dataDuration.fdiv (growIntervalFuel fuel dataDuration m tickInterval : Nat) ≤ m := by
  induction fuel generalizing tickInterval with
  | zero =>
    rw [growIntervalFuel]
    rcases le_or_lt dataDuration 0 with hD | hD
    · calc dataDuration.fdiv (tickInterval : Int) ≤ 0 := by
            rcases lt_or_eq_of_le hD with hD' | hD'
            · rcases Nat.eq_zero_or_pos tickInterval with h0 | h0
              · simp [h0]
              · exact le_of_lt (Int.fdiv_neg' hD' (by exact_mod_cast h0))
            · simp [hD']
        _ ≤ (m : Int) := Int.ofNat_nonneg m
    · have hD' : dataDuration < (tickInterval : Int) := by
        simp only [pow_zero, mul_one] at hfit
        omega
      have : dataDuration.fdiv (tickInterval : Int) ≤ 0 := by
        rw [Int.fdiv_eq_ediv _ (Int.ofNat_nonneg _)]
        rcases Nat.eq_zero_or_pos tickInterval with h0 | h0
        · simp [h0]
        · have hpos : (0 : Int) < (tickInterval : Int) := by exact_mod_cast h0
          have : dataDuration / (tickInterval : Int) < 1 :=
            (Int.ediv_lt_iff_lt_mul hpos).mpr (by linarith)
          omega
      exact le_trans this (Int.ofNat_nonneg m)
  | succ fuel ih =>
    rw [growIntervalFuel]
    split
    · exact ih (tickInterval * 2) (by rw [pow_succ] at hfit; linarith)
    · omega

/-- The computed tick interval covers `dataDuration` in at most
`maxInteriorTicks` whole steps. -/
lemma growInterval_spec (dataDuration : Int) (m : Nat) :
    dataDuration.fdiv (growInterval dataDuration m : Nat) ≤ m := by
  apply growIntervalFuel_spec
  have h1 : dataDuration.toNat < 2 ^ (dataDuration.toNat + 1) :=
    lt_of_lt_of_le (Nat.lt_two_pow _) (Nat.pow_le_pow_right (by norm_num) (by omega))
  calc dataDuration.toNat < 2 ^ (dataDuration.toNat + 1) := h1
    _ ≤ weekDuration * 2 ^ (dataDuration.toNat + 1) :=
        Nat.le_mul_of_pos_left _ (by norm_num [weekDuration])

/-- The computed tick interval is at least a week. -/
lemma weekDuration_le_growInterval (dataDuration : Int) (m : Nat) :
    weekDuration ≤ growInterval dataDuration m :=
  le_growIntervalFuel _ _ _ _

/-- The computed tick interval is a whole number of days. -/
lemma dayDuration_dvd_growInterval (dataDuration : Int) (m : Nat) :
    dayDuration ∣ (growInterval dataDuration m : Nat) := by
  have h : ((24 * 60 * 60 * 1000 : Nat)) ∣ growInterval dataDuration m :=
    dvd_growIntervalFuel _ _ _ _ _ ⟨7, by norm_num [weekDuration]⟩
  rcases h with ⟨t, ht⟩
  exact ⟨(t : Int), by rw [ht]; push_cast [dayDuration]; ring⟩

/-- The computed tick interval is positive and at least a day. -/
lemma dayDuration_le_growInterval (dataDuration : Int) (m : Nat) :
    dayDuration ≤ (growInterval dataDuration m : Nat) := by
  have h := weekDuration_le_growInterval dataDuration m
  have : (weekDuration : Int) = 7 * dayDuration := by norm_num [weekDuration, dayDuration]
  calc dayDuration ≤ (weekDuration : Int) := by norm_num [weekDuration, dayDuration]
    _ ≤ _ := by exact_mod_cast h

/-!
## The tick scan loop
-/

/-- Ticks already collected survive the rest of the scan. -/
lemma mem_scanTicks_of_mem (tickInterval : Int) (ds : List Int) (nextTick : Int)
    (ticks : List Int) (t : Int) (ht : t ∈ ticks) :
    t ∈ scanTicks tickInterval ds nextTick ticks := by
  induction ds generalizing nextTick ticks with
  | nil => exact ht
  | cons d rest ih =>
    rw [scanTicks]
    split
    · apply ih
      split
      · exact ht
      · exact List.mem_append_left _ ht
    · exact ih _ _ ht

/-- If the collected ticks are strictly increasing and all below the next
boundary, the scan keeps them strictly increasing: every tick it adds is
at or past the boundary, and each new boundary lies strictly past the
added date. -/
lemma scanTicks_pairwise (tickInterval : Int) (hday : dayDuration ≤ tickInterval)
    (ds : List Int) : ∀ (nextTick : Int) (ticks : List Int),
    ticks.Pairwise (· < ·) → (∀ t ∈ ticks, t < nextTick) →
    (scanTicks tickInterval ds nextTick ticks).Pairwise (· < ·) := by
  induction ds with
  | nil => intro nextTick ticks hpw _; exact hpw
  | cons d rest ih =>
    intro nextTick ticks hpw hbound
    rw [scanTicks]
    split
    · rename_i hle
      have hnotmem : d ∉ ticks := fun hmem => absurd hle (not_le.mpr (hbound d hmem))
      rw [if_neg hnotmem]
      apply ih
      · rw [List.pairwise_append]
        exact ⟨hpw, List.pairwise_singleton _ _,
          fun x hx y hy => by
            rw [List.mem_singleton] at hy
            exact hy ▸ lt_of_lt_of_le (hbound x hx) hle⟩
      · intro t ht
        have hd : d < fromDayStart d tickInterval := by
          have := lt_dayStartOf_add d
          rw [fromDayStart]
          linarith
        rcases List.mem_append.mp ht with h | h
        · exact lt_trans (lt_of_lt_of_le (hbound t h) hle) hd
        · rw [List.mem_singleton] at h
          exact h ▸ hd
    · exact ih _ _ hpw hbound

/-- Length bound for the scan: each added tick pushes the next boundary
forward by at least a full interval, so the number of added ticks is
bounded by the whole-interval count of the span up to `B`. -/
lemma scanTicks_length (tickInterval : Int) (hday : dayDuration ≤ tickInterval)
    (hdvd : dayDuration ∣ tickInterval) (ds : List Int) :
    ∀ (nextTick : Int) (ticks : List Int) (B : Int),
    dayDuration ∣ nextTick → (∀ d ∈ ds, d ≤ B) →
    (scanTicks tickInterval ds nextTick ticks).length ≤
      ticks.length +
        (if nextTick ≤ B then (B - nextTick).toNat / tickInterval.toNat + 1 else 0) := by
  have hIpos : 0 < tickInterval := lt_of_lt_of_le dayDuration_pos hday
  induction ds with
  | nil =>
    intro nextTick ticks B _ _
    simp [scanTicks]
  | cons d rest ih =>
    intro nextTick ticks B hnt hle
    have hdB : d ≤ B := hle d (by simp)
    have hrest : ∀ x ∈ rest, x ≤ B := fun x hx => hle x (by simp [hx])
    rw [scanTicks]
    split
    · rename_i hadd
      have hntB : nextTick ≤ B := le_trans hadd hdB
      rw [if_pos hntB]
      -- the new boundary is at least one interval past the old one
      have hstart : nextTick ≤ dayStartOf d := le_dayStartOf_of_dvd hnt hadd
      have hstep : nextTick + tickInterval ≤ fromDayStart d tickInterval := by
        rw [fromDayStart]; linarith
      have hnt' : dayDuration ∣ fromDayStart d tickInterval :=
        dvd_add (dayDuration_dvd_dayStartOf d) hdvd
      have hlen : (if d ∈ ticks then ticks else ticks ++ [d]).length ≤
          ticks.length + 1 := by
        split <;> simp
      calc (scanTicks tickInterval rest (fromDayStart d tickInterval)
              (if d ∈ ticks then ticks else ticks ++ [d])).length
          ≤ (if d ∈ ticks then ticks else ticks ++ [d]).length +
              (if fromDayStart d tickInterval ≤ B then
                (B - fromDayStart d tickInterval).toNat / tickInterval.toNat + 1
              else 0) := ih _ _ _ hnt' hrest
        _ ≤ ticks.length + 1 +
              (if fromDayStart d tickInterval ≤ B then
                (B - fromDayStart d tickInterval).toNat / tickInterval.toNat + 1
              else 0) := by omega
        _ ≤ ticks.length + ((B - nextTick).toNat / tickInterval.toNat + 1) := by
              split
              · rename_i hB'
                -- (B - new)/I + 1 ≤ (B - old)/I since old + I ≤ new ≤ B
                have h1 : (B - fromDayStart d tickInterval).toNat + tickInterval.toNat ≤
                    (B - nextTick).toNat := by omega
                have h2 : (B - fromDayStart d tickInterval).toNat / tickInterval.toNat + 1 ≤
                    (B - nextTick).toNat / tickInterval.toNat := by
                  have h3 := Nat.div_le_div_right
                    (c := tickInterval.toNat) h1
                  rwa [Nat.add_div_right _ (by omega)] at h3
                calc ticks.length + 1 +
                      ((B - fromDayStart d tickInterval).toNat / tickInterval.toNat + 1)
                    ≤ ticks.length + 1 + (B - nextTick).toNat / tickInterval.toNat :=
                      Nat.add_le_add_left h2 _
                  _ ≤ ticks.length + ((B - nextTick).toNat / tickInterval.toNat + 1) := by
                      rw [Nat.add_assoc, Nat.add_comm 1]
              · simp only [Nat.add_zero]
                exact Nat.add_le_add_left (Nat.succ_le_succ (Nat.zero_le _)) ticks.length
    · exact ih _ _ _ hnt hrest

/-!
## C5 — the TickSet invariant
-/

/-- The defaulted last element of a list is a member of the padded list. -/
lemma getLastD_mem (rest : List α) (f : α) : rest.getLastD f ∈ f :: rest := by
  induction rest generalizing f with
  | nil => simp
  | cons g t ih =>
    rw [List.getLastD_cons]
    exact List.mem_cons_of_mem f (ih g)

/-- In a `≤`-sorted nonempty list every element is at most the last. -/
lemma pairwise_le_getLastD (f : Int) (rest : List Int)
    (h : (f :: rest).Pairwise (· ≤ ·)) :
    ∀ d ∈ f :: rest, d ≤ rest.getLastD f := by
  induction rest generalizing f with
  | nil => intro d hd; rw [List.mem_singleton] at hd; simp [hd]
  | cons g t ih =>
    rw [List.pairwise_cons] at h
    intro d hd
    rw [List.getLastD_cons]
    rcases List.mem_cons.mp hd with rfl | hd'
    · exact h.1 _ (getLastD_mem t g)
    · exact ih g h.2 d hd'

/-- Unfolding `calculateDateTicks` in its general branch. -/
lemma calculateDateTicks_of_three_le (f : Int) (rest : List Int) (k : Nat)
    (hk : 3 ≤ k) :
    calculateDateTicks (f :: rest) k =
      (scanTicks ((growInterval (rest.getLastD f - f) (k - 1) : Nat)) (f :: rest)
        (fromDayStart f ((growInterval (rest.getLastD f - f) (k - 1) : Nat)))
        [f]).map some := by
  rw [calculateDateTicks]
  rw [if_neg (by omega), if_neg (by omega), if_neg (by omega)]

/-- C5 amended: on a nonempty date list the tick list consists of defined
(`some`) timestamps; it contains the first date whenever `maxTicks ≥ 1`;
it is strictly increasing except possibly in the `maxTicks = 2` branch
(which returns `[first, last]` verbatim, duplicating a lone date); its
length is at most `maxTicks` when `maxTicks ≤ 2`, and for `≤`-sorted
input at most `maxTicks + 1` in general — one more than the claimed
bound, which the calendar-aligned boundary reset can exceed (see the
counterexample). -/
theorem calculateDateTicks_tick_set (f : Int) (rest : List Int) (maxTicks : Nat) :
    ∃ ts : List Int,
      calculateDateTicks (f :: rest) maxTicks = ts.map some
        ∧ (1 ≤ maxTicks → f ∈ ts)
        ∧ (maxTicks ≠ 2 → ts.Pairwise (· < ·))
        ∧ (maxTicks ≤ 2 → ts.length ≤ maxTicks)
        ∧ ((f :: rest).Pairwise (· ≤ ·) → ts.length ≤ maxTicks + 1) := by
  by_cases h0 : maxTicks = 0
  · exact ⟨[], by simp [h0, calculateDateTicks], by omega, fun _ => List.Pairwise.nil,
      by simp, fun _ => by simp⟩
  by_cases h1 : maxTicks = 1
  · refine ⟨[f], ?_, fun _ => by simp, fun _ => List.pairwise_singleton _ _,
      by simp [h1], fun _ => by simp [h1]⟩
    subst h1
    rfl
  by_cases h2 : maxTicks = 2
  · refine ⟨[f, rest.getLastD f], ?_, fun _ => by simp, fun hne => absurd h2 hne,
      by simp [h2], fun _ => by simp [h2]⟩
    subst h2
    show [(f :: rest).head?, (f :: rest).getLast?] = _
    simp [cons_getLast?]
  · have hk : 3 ≤ maxTicks := by omega
    set iN : Nat := growInterval (rest.getLastD f - f) (maxTicks - 1) with hiN
    set tickInterval : Int := (iN : Int) with hI
    set nt0 : Int := fromDayStart f tickInterval with hnt0
    have hIday : dayDuration ≤ tickInterval := dayDuration_le_growInterval _ _
    have hIdvd : dayDuration ∣ tickInterval := dayDuration_dvd_growInterval _ _
    have hIpos : 0 < tickInterval := lt_of_lt_of_le dayDuration_pos hIday
    have hbound0 : ∀ t ∈ [f], t < nt0 := by
      intro t ht
      rw [List.mem_singleton] at ht
      subst ht
      have := lt_dayStartOf_add t
      rw [hnt0, fromDayStart]
      linarith
    refine ⟨scanTicks tickInterval (f :: rest) nt0 [f],
      calculateDateTicks_of_three_le f rest maxTicks hk, ?_, ?_, ?_, ?_⟩
    · exact fun _ => mem_scanTicks_of_mem _ _ _ _ f (by simp)
    · exact fun _ => scanTicks_pairwise tickInterval hIday _ nt0 [f]
        (List.pairwise_singleton _ _) hbound0
    · omega
    · intro hsorted
      have hB : ∀ d ∈ f :: rest, d ≤ rest.getLastD f :=
        pairwise_le_getLastD f rest hsorted
      have hnt0dvd : dayDuration ∣ nt0 := by
        rw [hnt0, fromDayStart]
        exact dvd_add (dayDuration_dvd_dayStartOf f) hIdvd
      have hlen := scanTicks_length tickInterval hIday hIdvd (f :: rest) nt0 [f]
        (rest.getLastD f) hnt0dvd hB
      rw [List.length_singleton] at hlen
      set l : Int := rest.getLastD f with hl
      by_cases hcase : nt0 ≤ l
      · rw [if_pos hcase] at hlen
        -- the span below the first boundary is under (maxTicks - 1 + 1) intervals
        have hspec : (l - f).fdiv tickInterval ≤ (maxTicks - 1 : Nat) :=
          growInterval_spec _ _
        have hDlt : l - f < ((maxTicks - 1 : Nat) + 1 : Int) * tickInterval := by
          have hstep := Int.lt_fdiv_add_one_mul_self (l - f) hIpos
          have hmul : ((l - f).fdiv tickInterval + 1) * tickInterval ≤
              (((maxTicks - 1 : Nat) : Int) + 1) * tickInterval :=
            mul_le_mul_of_nonneg_right (by omega) (le_of_lt hIpos)
          linarith
        have hday := lt_dayStartOf_add f
        have hnt0eq : nt0 = dayStartOf f + tickInterval := by
          rw [hnt0, fromDayStart]
        have hlt : l - nt0 < ((maxTicks - 1 : Nat) + 1 : Int) * tickInterval := by
          have : l - nt0 < l - f + dayDuration - tickInterval := by omega
          linarith
        have hM : (((maxTicks - 1 : Nat) + 1 : Int) * tickInterval) =
            (((maxTicks - 1 + 1) * iN : Nat) : Int) := by
          push_cast [hI]
          ring
        have hq : (l - nt0).toNat / tickInterval.toNat < maxTicks - 1 + 1 := by
          rw [Nat.div_lt_iff_lt_mul (by omega : 0 < tickInterval.toNat)]
          have h1 : (l - nt0).toNat < ((maxTicks - 1 + 1) * iN : Nat) := by
            rw [hM] at hlt
            omega
          have h2 : tickInterval.toNat = iN := by
            rw [hI]
            exact Int.toNat_natCast iN
          rw [h2]
          exact h1
        omega
      · rw [if_neg hcase] at hlen
        omega

/-- C5 counterexample: two explicit inputs violate the claimed TickSet
invariant.  A lone date with `maxTicks = 2` yields `[5, 5]`, which is not
strictly increasing; and five sorted dates spanning 20 days and 12 hours
with `maxTicks = 3` yield 4 ticks, exceeding `maxTicks` — the first date
sits at 23:00 so the week boundaries land one tick too many inside the
span. -/
theorem calculateDateTicks_invariant_cex :
    calculateDateTicks [5] 2 = [some 5, some 5]
      ∧ (calculateDateTicks
          [82800000, 604800000, 1209600000, 1814400000, 1814400001] 3).length = 4 := by
  constructor
  · rfl
  · rw [calculateDateTicks_of_three_le _ _ 3 (by norm_num)]
    have hI : growInterval
        (([604800000, 1209600000, 1814400000, 1814400001] : List Int).getLastD
          82800000 - 82800000) 2 = 604800000 := by
      rw [growInterval, growIntervalFuel]
      rw [if_neg (by decide)]
      rfl
    rw [hI]
    decide

/-- Witness for the amended C5 at a concrete input: two sorted dates two
weeks apart with `maxTicks = 6`. -/
theorem calculateDateTicks_tick_set_witness :
    ∃ ts : List Int,
      calculateDateTicks [0, 1209600000] 6 = ts.map some
        ∧ 0 ∈ ts ∧ ts.Pairwise (· < ·) ∧ ts.length ≤ 7 := by
  obtain ⟨ts, h1, h2, h3, _, h5⟩ := calculateDateTicks_tick_set 0 [1209600000] 6
  exact ⟨ts, h1, h2 (by norm_num), h3 (by norm_num), h5 (by decide)⟩

/-!
## First-seen accumulation loops of `filterTopN`
-/

/-- A duplicate-free list included in another list is no longer than
it. -/
lemma length_le_of_nodup_subset [DecidableEq α] {l m : List α}
    (hn : l.Nodup) (hs : l ⊆ m) : l.length ≤ m.length := by
  calc l.length = l.toFinset.card := (List.toFinset_card_of_nodup hn).symm
    _ ≤ m.toFinset.card :=
        Finset.card_le_card (fun x hx => by
          rw [List.mem_toFinset] at hx ⊢
          exact hs hx)
    _ = m.dedup.length := List.card_toFinset m
    _ ≤ m.length := m.dedup_sublist.length_le

/-- Membership in the `datesInOrder` accumulator. -/
lemma datesInOrder_foldl_mem (pts : List HistoryPoint) :
    ∀ (acc : List Int) (d : Int),
    d ∈ pts.foldl (fun acc point =>
        if point.date ∈ acc then acc else acc ++ [point.date]) acc ↔
      d ∈ acc ∨ ∃ p ∈ pts, p.date = d := by
  induction pts with
  | nil => simp
  | cons q ps ih =>
    intro acc d
    rw [List.foldl_cons]
    by_cases hq : q.date ∈ acc
    · rw [if_pos hq, ih]
      constructor
      · rintro (h | ⟨p, hp, hpd⟩)
        · exact Or.inl h
        · exact Or.inr ⟨p, by simp [hp], hpd⟩
      · rintro (h | ⟨p, hp, hpd⟩)
        · exact Or.inl h
        · rcases List.mem_cons.mp hp with rfl | hp'
          · exact Or.inl (hpd ▸ hq)
          · exact Or.inr ⟨p, hp', hpd⟩
    · rw [if_neg hq, ih]
      constructor
      · rintro (h | ⟨p, hp, hpd⟩)
        · rcases List.mem_append.mp h with h' | h'
          · exact Or.inl h'
          · rw [List.mem_singleton] at h'
            exact Or.inr ⟨q, by simp, h'.symm⟩
        · exact Or.inr ⟨p, by simp [hp], hpd⟩
      · rintro (h | ⟨p, hp, hpd⟩)
        · exact Or.inl (List.mem_append_left _ h)
        · rcases List.mem_cons.mp hp with rfl | hp'
          · exact Or.inl (List.mem_append_right _ (by simp [hpd]))
          · exact Or.inr ⟨p, hp', hpd⟩

/-- The `datesInOrder` accumulator stays duplicate-free. -/
lemma datesInOrder_foldl_nodup (pts : List HistoryPoint) :
    ∀ (acc : List Int), acc.Nodup →
    (pts.foldl (fun acc point =>
        if point.date ∈ acc then acc else acc ++ [point.date]) acc).Nodup := by
  induction pts with
  | nil => exact fun acc h => h
  | cons q ps ih =>
    intro acc hacc
    rw [List.foldl_cons]
    split
    · exact ih acc hacc
    · rename_i hq
      refine ih _ ?_
      rw [List.nodup_append]
      exact ⟨hacc, List.nodup_singleton _,
        fun x hx => by rw [List.mem_singleton]; rintro rfl; exact hq hx⟩

lemma datesInOrderOf_mem (pts : List HistoryPoint) (d : Int) :
    d ∈ datesInOrderOf pts ↔ ∃ p ∈ pts, p.date = d := by
  rw [datesInOrderOf, datesInOrder_foldl_mem]
  simp

lemma datesInOrderOf_nodup (pts : List HistoryPoint) :
    (datesInOrderOf pts).Nodup :=
  datesInOrder_foldl_nodup pts [] (List.nodup_nil)

/-- Membership in the `topVersionsInOrder` accumulator. -/
lemma topVersionsInOrder_foldl_mem (pts : List HistoryPoint) (tops : List String) :
    ∀ (acc : List String) (v : String),
    v ∈ pts.foldl (fun acc point =>
        if point.version ∈ tops ∧ point.version ∉ acc then acc ++ [point.version]
        else acc) acc ↔
      v ∈ acc ∨ (v ∈ tops ∧ ∃ p ∈ pts, p.version = v) := by
  induction pts with
  | nil => simp
  | cons q ps ih =>
    intro acc v
    rw [List.foldl_cons]
    by_cases hq : q.version ∈ tops ∧ q.version ∉ acc
    · rw [if_pos hq, ih]
      constructor
      · rintro (h | ⟨ht, p, hp, hpd⟩)
        · rcases List.mem_append.mp h with h' | h'
          · exact Or.inl h'
          · rw [List.mem_singleton] at h'
            exact Or.inr ⟨h' ▸ hq.1, q, by simp, h'.symm⟩
        · exact Or.inr ⟨ht, p, by simp [hp], hpd⟩
      · rintro (h | ⟨ht, p, hp, hpd⟩)
        · exact Or.inl (List.mem_append_left _ h)
        · rcases List.mem_cons.mp hp with rfl | hp'
          · exact Or.inl (List.mem_append_right _ (by simp [hpd]))
          · exact Or.inr ⟨ht, p, hp', hpd⟩
    · rw [if_neg hq, ih]
      constructor
      · rintro (h | ⟨ht, p, hp, hpd⟩)
        · exact Or.inl h
        · exact Or.inr ⟨ht, p, by simp [hp], hpd⟩
      · rintro (h | ⟨ht, p, hp, hpd⟩)
        · exact Or.inl h
        · rcases List.mem_cons.mp hp with rfl | hp'
          · subst hpd
            rcases Classical.em (p.version ∈ acc) with hmem | hmem
            · exact Or.inl hmem
            · exact absurd ⟨ht, hmem⟩ hq
          · exact Or.inr ⟨ht, p, hp', hpd⟩

/-- The `topVersionsInOrder` accumulator stays duplicate-free and inside
`topVersions`. -/
lemma topVersionsInOrder_foldl_nodup_sub (pts : List HistoryPoint)
    (tops : List String) :
    ∀ (acc : List String), acc.Nodup → (∀ v ∈ acc, v ∈ tops) →
    (pts.foldl (fun acc point =>
        if point.version ∈ tops ∧ point.version ∉ acc then acc ++ [point.version]
        else acc) acc).Nodup ∧
      ∀ v ∈ pts.foldl (fun acc point =>
        if point.version ∈ tops ∧ point.version ∉ acc then acc ++ [point.version]
        else acc) acc, v ∈ tops := by
  induction pts with
  | nil => exact fun acc h hs => ⟨h, hs⟩
  | cons q ps ih =>
    intro acc hacc hsub
    rw [List.foldl_cons]
    split
    · rename_i hq
      refine ih _ ?_ ?_
      · rw [List.nodup_append]
        exact ⟨hacc, List.nodup_singleton _,
          fun x hx => by rw [List.mem_singleton]; rintro rfl; exact hq.2 hx⟩
      · intro v hv
        rcases List.mem_append.mp hv with h | h
        · exact hsub v h
        · rw [List.mem_singleton] at h
          exact h ▸ hq.1
    · exact ih acc hacc hsub

lemma topVersionsInOrderOf_mem (pts : List HistoryPoint) (tops : List String)
    (v : String) :
    v ∈ topVersionsInOrderOf pts tops ↔
      v ∈ tops ∧ ∃ p ∈ pts, p.version = v := by
  rw [topVersionsInOrderOf, topVersionsInOrder_foldl_mem]
  simp

lemma topVersionsInOrderOf_nodup (pts : List HistoryPoint) (tops : List String) :
    (topVersionsInOrderOf pts tops).Nodup :=
  (topVersionsInOrder_foldl_nodup_sub pts tops [] List.nodup_nil (by simp)).1

lemma topVersionsInOrderOf_subset (pts : List HistoryPoint) (tops : List String) :
    ∀ v ∈ topVersionsInOrderOf pts tops, v ∈ tops :=
  (topVersionsInOrder_foldl_nodup_sub pts tops [] List.nodup_nil (by simp)).2

/-!
## Window totals, slicing and the kept-version list
-/

/-- Versions present after an `addVersionCount` update. -/
lemma addVersionCount_mem_fst (acc : List (String × ℚ)) (v : String) (c : ℚ)
    (v' : String) :
    v' ∈ (addVersionCount acc v c).map Prod.fst ↔
      v' ∈ acc.map Prod.fst ∨ v' = v := by
  induction acc with
  | nil => simp [addVersionCount]
  | cons e rest ih =>
    obtain ⟨w, t⟩ := e
    rw [addVersionCount]
    split
    · rename_i hw
      subst hw
      simp only [List.map_cons, List.mem_cons]
      tauto
    · simp only [List.map_cons, List.mem_cons, ih]
      tauto

/-- Versions present in the window accumulator. -/
lemma versionsInWindow_foldl_mem (e : Int) (pts : List HistoryPoint) :
    ∀ (acc : List (String × ℚ)) (v : String),
    v ∈ (pts.foldl (fun acc point =>
        if e ≤ point.date then
          addVersionCount acc point.version
            (if point.date < e then 0 else point.count)
        else acc) acc).map Prod.fst ↔
      v ∈ acc.map Prod.fst ∨ ∃ p ∈ pts, e ≤ p.date ∧ p.version = v := by
  induction pts with
  | nil => simp
  | cons q ps ih =>
    intro acc v
    rw [List.foldl_cons]
    by_cases hq : e ≤ q.date
    · rw [if_pos hq, ih, addVersionCount_mem_fst]
      constructor
      · rintro ((h | h) | ⟨p, hp, hpe, hpv⟩)
        · exact Or.inl h
        · exact Or.inr ⟨q, by simp, hq, h.symm⟩
        · exact Or.inr ⟨p, by simp [hp], hpe, hpv⟩
      · rintro (h | ⟨p, hp, hpe, hpv⟩)
        · exact Or.inl (Or.inl h)
        · rcases List.mem_cons.mp hp with rfl | hp'
          · exact Or.inl (Or.inr hpv.symm)
          · exact Or.inr ⟨p, hp', hpe, hpv⟩
    · rw [if_neg hq, ih]
      constructor
      · rintro (h | ⟨p, hp, hpe, hpv⟩)
        · exact Or.inl h
        · exact Or.inr ⟨p, by simp [hp], hpe, hpv⟩
      · rintro (h | ⟨p, hp, hpe, hpv⟩)
        · exact Or.inl h
        · rcases List.mem_cons.mp hp with rfl | hp'
          · exact absurd hpe hq
          · exact Or.inr ⟨p, hp', hpe, hpv⟩

lemma versionsInWindowOf_mem (pts : List HistoryPoint) (e : Int) (v : String) :
    v ∈ (versionsInWindowOf pts e).map Prod.fst ↔
      ∃ p ∈ pts, e ≤ p.date ∧ p.version = v := by
  rw [versionsInWindowOf, versionsInWindow_foldl_mem]
  simp

/-- With `n = 0`, `slice(-0)` is `slice(0)`: every ranked version is
kept. -/
lemma topVersionsOf_zero (pts : List HistoryPoint) (e : Int) :
    topVersionsOf pts 0 e =
      (List.insertionSort countLe (versionsInWindowOf pts e)).map Prod.fst := by
  rw [topVersionsOf, jsSliceFrom]
  norm_num

/-- Membership in the ranked list is membership in the window totals. -/
lemma mem_topVersionsOf_zero (pts : List HistoryPoint) (e : Int) (v : String) :
    v ∈ topVersionsOf pts 0 e ↔ ∃ p ∈ pts, e ≤ p.date ∧ p.version = v := by
  rw [topVersionsOf_zero, ← versionsInWindowOf_mem pts e v]
  exact ((List.perm_insertionSort countLe _).map Prod.fst).mem_iff

/-- For positive `n` at most `n` versions are kept by the slice. -/
lemma topVersionsOf_length_le (pts : List HistoryPoint) (e : Int) {n : Int}
    (hn : 0 < n) : ((topVersionsOf pts n e).length : Int) ≤ n := by
  rw [topVersionsOf, List.length_map, jsSliceFrom, if_pos (by omega : -n < 0),
    List.length_drop]
  omega

/-- The window boundary never passes the latest date when the window is
nonnegative. -/
lemma earliestAllowableOf_le_latest (pts : List HistoryPoint) {w : Int}
    (hw : 0 ≤ w) : earliestAllowableOf pts w ≤ latestDateOf pts := by
  rw [earliestAllowableOf]
  have h1 := dayStartOf_le (latestDateOf pts)
  have h2 : 0 ≤ w * dayDuration := mul_nonneg hw (le_of_lt dayDuration_pos)
  linarith

lemma latestDateOf_cons (h : HistoryPoint) (t : List HistoryPoint) :
    latestDateOf (h :: t) = (t.getLastD h).date := by
  rw [latestDateOf, cons_getLast?]
  rfl

/-- In a date-sorted nonempty point list every date is at most the
latest. -/
lemma pairwise_date_le_latest (h : HistoryPoint) (t : List HistoryPoint)
    (hs : (h :: t).Pairwise (fun p q => p.date ≤ q.date)) :
    ∀ p ∈ h :: t, p.date ≤ latestDateOf (h :: t) := by
  rw [latestDateOf_cons]
  induction t generalizing h with
  | nil => intro p hp; rw [List.mem_singleton] at hp; simp [hp]
  | cons g t2 ih =>
    rw [List.pairwise_cons] at hs
    intro p hp
    rw [List.getLastD_cons]
    rcases List.mem_cons.mp hp with rfl | hp'
    · exact hs.1 _ (getLastD_mem t2 g)
    · exact ih g hs.2 p hp'

/-!
## Zero-fill rows and the assembled output
-/

/-- Every point a zero-fill row emits carries the row's date. -/
lemma zeroFillRow_date (F : List HistoryPoint) (tvs : List String) (d : Int) :
    ∀ q ∈ zeroFillRow F tvs d, q.date = d := by
  intro q hq
  rw [zeroFillRow] at hq
  obtain ⟨tv, _, rfl⟩ := List.mem_map.mp hq
  rcases hfind : (F.filter (fun p => decide (p.date = d))).find?
      (fun p => p.version == tv) with _ | ep <;> simp [hfind]

/-- The versions of a zero-fill row are exactly the kept versions, in
order. -/
lemma zeroFillRow_map_version (F : List HistoryPoint) (tvs : List String)
    (d : Int) :
    (zeroFillRow F tvs d).map HistoryPoint.version = tvs := by
  rw [zeroFillRow, List.map_map]
  have : ∀ tv ∈ tvs, (HistoryPoint.version ∘ fun topVersion =>
      match (F.filter (fun p => decide (p.date = d))).find?
          (fun p => p.version == topVersion) with
      | some existingPoint =>
        { date := d, version := existingPoint.version, count := existingPoint.count }
      | none => { date := d, version := topVersion, count := 0 }) tv = tv := by
    intro tv _
    simp only [Function.comp_apply]
    rcases hfind : (F.filter (fun p => decide (p.date = d))).find?
        (fun p => p.version == tv) with _ | ep
    · rw [hfind]
    · rw [hfind]
      have := List.find?_some hfind
      rw [beq_iff_eq] at this
      exact this
  rw [List.map_congr_left this]
  simp

lemma zeroFillRow_length (F : List HistoryPoint) (tvs : List String) (d : Int) :
    (zeroFillRow F tvs d).length = tvs.length := by
  rw [zeroFillRow, List.length_map]

lemma zeroFillRow_version_mem (F : List HistoryPoint) (tvs : List String)
    (d : Int) : ∀ q ∈ zeroFillRow F tvs d, q.version ∈ tvs := by
  intro q hq
  rw [← zeroFillRow_map_version F tvs d]
  exact List.mem_map_of_mem _ hq

lemma datesAscendingOf_nodup (F : List HistoryPoint) :
    (datesAscendingOf F).Nodup :=
  ((List.perm_insertionSort dateStrLe _).nodup_iff).mpr (datesInOrderOf_nodup F)

lemma datesAscendingOf_mem (F : List HistoryPoint) (d : Int) :
    d ∈ datesAscendingOf F ↔ ∃ p ∈ F, p.date = d := by
  rw [← datesInOrderOf_mem]
  exact (List.perm_insertionSort dateStrLe _).mem_iff

lemma datesAscendingOf_sorted (F : List HistoryPoint) :
    (datesAscendingOf F).Pairwise dateStrLe :=
  List.sorted_insertionSort dateStrLe (datesInOrderOf F)

/-- Filtering a flat-mapped list when only one base element can
contribute matches. -/
lemma filter_flatMap_unique {row : Int → List HistoryPoint}
    {p : HistoryPoint → Bool} {d : Int} :
    ∀ (ds : List Int), ds.Nodup → d ∈ ds →
    (∀ d' ∈ ds, d' ≠ d → (row d').filter p = []) →
    (ds.flatMap row).filter p = (row d).filter p := by
  intro ds
  induction ds with
  | nil => intro _ hd; exact absurd hd (List.not_mem_nil d)
  | cons a t ih =>
    intro hnd hd hother
    rw [List.flatMap_cons, List.filter_append]
    rw [List.nodup_cons] at hnd
    rcases List.mem_cons.mp hd with rfl | hd'
    · have htail : (t.flatMap row).filter p = [] := by
        rw [List.filter_eq_nil_iff]
        intro q hq
        obtain ⟨d', hd', hq'⟩ := List.mem_flatMap.mp hq
        have : (row d').filter p = [] :=
          hother d' (by simp [hd']) (fun hcontra => hnd.1 (hcontra ▸ hd'))
        rw [List.filter_eq_nil_iff] at this
        exact this q hq'
      rw [htail, List.append_nil]
    · have hhead : (row a).filter p = [] :=
        hother a (by simp) (fun hcontra => hnd.1 (hcontra ▸ hd'))
      rw [hhead, List.nil_append]
      exact ih hnd.2 hd' (fun d' hd'' hne => hother d' (by simp [hd'']) hne)

/-- `filterTopN` on nonempty input, written through the named pieces. -/
lemma filterTopN_cons (h : HistoryPoint) (t : List HistoryPoint) (n w : Int) :
    filterTopN (h :: t) n w =
      ((datesAscendingOf (filteredPointsOf (h :: t)
          (topVersionsOf (h :: t) n (earliestAllowableOf (h :: t) w)))).filter
        (fun date => !decide (date < earliestAllowableOf (h :: t) w))).flatMap
      (zeroFillRow (filteredPointsOf (h :: t)
          (topVersionsOf (h :: t) n (earliestAllowableOf (h :: t) w)))
        (keptVersionsOf (h :: t) n w)) := rfl

/-- Restriction of the `filterTopN` output to one date: only that date's
zero-fill row contributes, for any predicate entailing the date. -/
lemma filterTopN_filter_at_date (h : HistoryPoint) (t : List HistoryPoint)
    (n w d : Int) (p : HistoryPoint → Bool)
    (hp : ∀ q, p q = true → q.date = d)
    (hd : d ∈ (filterTopN (h :: t) n w).map HistoryPoint.date) :
    (filterTopN (h :: t) n w).filter p =
      (zeroFillRow (filteredPointsOf (h :: t)
          (topVersionsOf (h :: t) n (earliestAllowableOf (h :: t) w)))
        (keptVersionsOf (h :: t) n w) d).filter p := by
  rw [filterTopN_cons] at hd ⊢
  set e := earliestAllowableOf (h :: t) w with he
  set F := filteredPointsOf (h :: t) (topVersionsOf (h :: t) n e) with hF
  set tvs := keptVersionsOf (h :: t) n w with htvs
  set kd := (datesAscendingOf F).filter (fun date => !decide (date < e)) with hkd
  have hdkd : d ∈ kd := by
    obtain ⟨q, hq, hqd⟩ := List.mem_map.mp hd
    obtain ⟨d', hd', hq'⟩ := List.mem_flatMap.mp hq
    have : q.date = d' := zeroFillRow_date F tvs d' q hq'
    rw [← hqd, this]
    exact hd'
  have hnd : kd.Nodup := (datesAscendingOf_nodup F).filter _
  refine filter_flatMap_unique kd hnd hdkd ?_
  intro d' _ hne
  rw [List.filter_eq_nil_iff]
  intro q hq
  have hqd : q.date = d' := zeroFillRow_date F tvs d' q hq
  intro hpq
  exact hne (hqd ▸ hp q hpq)

/-!
## C6 — zero-fill completeness
-/

/-- C6: for every date present in the `filterTopN` output and every kept
version, the output holds exactly one point for that (date, version)
pair. -/
theorem filterTopN_zero_fill_complete (pts : List HistoryPoint) (n w d : Int)
    (v : String)
    (hd : d ∈ (filterTopN pts n w).map HistoryPoint.date)
    (hv : v ∈ keptVersionsOf pts n w) :
    ((filterTopN pts n w).filter
        (fun p => p.date == d && p.version == v)).length = 1 := by
  match pts with
  | [] => exact absurd hd (by simp [filterTopN])
  | h :: t =>
    rw [filterTopN_filter_at_date h t n w d _
      (fun q hq => by
        rw [Bool.and_eq_true, beq_iff_eq, beq_iff_eq] at hq
        exact hq.1) hd]
    set F := filteredPointsOf (h :: t)
      (topVersionsOf (h :: t) n (earliestAllowableOf (h :: t) w)) with hF
    set tvs := keptVersionsOf (h :: t) n w with htvs
    have hcongr : (zeroFillRow F tvs d).filter
        (fun p => p.date == d && p.version == v) =
        (zeroFillRow F tvs d).filter (fun p => p.version == v) := by
      apply List.filter_congr
      intro q hq
      have : q.date = d := zeroFillRow_date F tvs d q hq
      simp [this]
    rw [hcongr, ← List.countP_eq_length_filter]
    have hmapver := zeroFillRow_map_version F tvs d
    have : List.countP (fun q => q.version == v) (zeroFillRow F tvs d) =
        List.countP (· == v) ((zeroFillRow F tvs d).map HistoryPoint.version) := by
      rw [List.countP_map]
      rfl
    rw [this, hmapver]
    have hnd : tvs.Nodup := topVersionsInOrderOf_nodup _ _
    have := List.count_eq_one_of_mem hnd hv
    rwa [List.count] at this

/-- Witness for C6: with `maxVersionsShown = 1` on the spec's concrete
scenario the kept version is `"b"` and the output holds exactly one
(1, "b") point. -/
theorem filterTopN_zero_fill_complete_witness :
    ((filterTopN [⟨1, "a", 10⟩, ⟨1, "b", 30⟩] 1 30).filter
        (fun p => p.date == 1 && p.version == "b")).length = 1 :=
  filterTopN_zero_fill_complete [⟨1, "a", 10⟩, ⟨1, "b", 30⟩] 1 30 1 "b"
    (by decide) (by decide)

/-!
## C4 — result ordering
-/

/-- Every date a zero-fill row emits is the row's date, as a map. -/
lemma zeroFillRow_map_date (F : List HistoryPoint) (tvs : List String) (d : Int) :
    (zeroFillRow F tvs d).map HistoryPoint.date = List.replicate tvs.length d := by
  rw [zeroFillRow, List.map_map]
  have : ∀ tv ∈ tvs, (HistoryPoint.date ∘ fun topVersion =>
      match (F.filter (fun p => decide (p.date = d))).find?
          (fun p => p.version == topVersion) with
      | some existingPoint =>
        { date := d, version := existingPoint.version, count := existingPoint.count }
      | none => { date := d, version := topVersion, count := 0 }) tv = d := by
    intro tv _
    simp only [Function.comp_apply]
    rcases hfind : (F.filter (fun p => decide (p.date = d))).find?
        (fun p => p.version == tv) with _ | ep <;> rw [hfind]
  rw [List.map_congr_left this, List.map_const']

/-- C4 counterexample: dates 5 and 10 are sorted as the strings "5" and
"10", so the output groups date 10 before date 5 — not ascending. -/
theorem filterTopN_ordering_cex :
    filterTopN [⟨5, "a", 1⟩, ⟨10, "a", 1⟩] 1 1 = [⟨10, "a", 1⟩, ⟨5, "a", 1⟩]
      ∧ ¬ ((filterTopN [⟨5, "a", 1⟩, ⟨10, "a", 1⟩] 1 1).map
          HistoryPoint.date).Pairwise (· ≤ ·) := by
  constructor
  · decide
  · decide

/-- C4 amended: the output is grouped by date in ascending *lexicographic
string* order of the timestamps (which agrees with numeric order only
when all date strings are equally long, e.g. genuine ms timestamps), and
within each date the points carry exactly the kept versions in
first-occurrence order. -/
theorem filterTopN_ordering (pts : List HistoryPoint) (n w : Int) :
    ((filterTopN pts n w).map HistoryPoint.date).Pairwise dateStrLe
      ∧ ∀ d ∈ (filterTopN pts n w).map HistoryPoint.date,
          ((filterTopN pts n w).filter (fun p => p.date == d)).map
            HistoryPoint.version = keptVersionsOf pts n w := by
  match pts with
  | [] => exact ⟨by simp [filterTopN], fun d hd => absurd hd (by simp [filterTopN])⟩
  | h :: t =>
    constructor
    · rw [filterTopN_cons]
      set e := earliestAllowableOf (h :: t) w with he
      set F := filteredPointsOf (h :: t) (topVersionsOf (h :: t) n e) with hF
      set tvs := keptVersionsOf (h :: t) n w with htvs
      set kd := (datesAscendingOf F).filter (fun date => !decide (date < e)) with hkd
      rw [List.map_flatMap]
      rw [List.pairwise_flatMap]
      constructor
      · intro d _
        rw [zeroFillRow_map_date, List.pairwise_replicate]
        exact Or.inr (dateStrLe_refl d)
      · have hsorted : kd.Pairwise dateStrLe :=
          (datesAscendingOf_sorted F).sublist (List.filter_sublist _)
        refine hsorted.imp ?_
        intro d1 d2 h12 x hx y hy
        rw [zeroFillRow_map_date] at hx hy
        rw [List.eq_of_mem_replicate hx, List.eq_of_mem_replicate hy]
        exact h12
    · intro d hd
      rw [filterTopN_filter_at_date h t n w d _
        (fun q hq => by rwa [beq_iff_eq] at hq) hd]
      rw [List.filter_eq_self.mpr
        (fun q hq => by
          rw [beq_iff_eq]
          exact zeroFillRow_date _ _ d q hq)]
      exact zeroFillRow_map_version _ _ d

/-- Witness for the amended C4 at a concrete input. -/
theorem filterTopN_ordering_witness :
    ((filterTopN [⟨1, "a", 10⟩, ⟨1, "b", 30⟩] 1 30).map
        HistoryPoint.date).Pairwise dateStrLe
      ∧ ((filterTopN [⟨1, "a", 10⟩, ⟨1, "b", 30⟩] 1 30).filter
          (fun p => p.date == 1)).map HistoryPoint.version =
        keptVersionsOf [⟨1, "a", 10⟩, ⟨1, "b", 30⟩] 1 30 :=
  ⟨(filterTopN_ordering [⟨1, "a", 10⟩, ⟨1, "b", 30⟩] 1 30).1,
    (filterTopN_ordering [⟨1, "a", 10⟩, ⟨1, "b", 30⟩] 1 30).2 1 (by decide)⟩

/-!
## C7 — top-N cardinality and window containment
-/

/-- Every point `filterTopN` outputs carries a kept version. -/
lemma filterTopN_version_mem (h : HistoryPoint) (t : List HistoryPoint)
    (n w : Int) :
    ∀ q ∈ filterTopN (h :: t) n w, q.version ∈ keptVersionsOf (h :: t) n w := by
  intro q hq
  rw [filterTopN_cons] at hq
  obtain ⟨d', _, hq'⟩ := List.mem_flatMap.mp hq
  exact zeroFillRow_version_mem _ _ d' q hq'

/-- C7: on nonempty date-sorted input with positive `n` and window, the
output mentions at most `n` distinct versions and every output date lies
in the window `[earliestAllowableDate, latestDate]`. -/
theorem filterTopN_topn_window (pts : List HistoryPoint) (n w : Int)
    (hne : pts ≠ [])
    (hsort : pts.Pairwise (fun p q => p.date ≤ q.date))
    (hn : 0 < n) (_hw : 0 < w) :
    (((filterTopN pts n w).map HistoryPoint.version).dedup.length : Int) ≤ n
      ∧ ∀ p ∈ filterTopN pts n w,
          earliestAllowableOf pts w ≤ p.date ∧ p.date ≤ latestDateOf pts := by
  match pts with
  | [] => exact absurd rfl hne
  | h :: t =>
    set e := earliestAllowableOf (h :: t) w with he
    set tops := topVersionsOf (h :: t) n e with htops
    set tvs := keptVersionsOf (h :: t) n w with htvs
    constructor
    · have hsub1 : ((filterTopN (h :: t) n w).map HistoryPoint.version).dedup ⊆ tvs := by
        intro x hx
        have hx' := List.dedup_subset _ hx
        obtain ⟨q, hq, rfl⟩ := List.mem_map.mp hx'
        exact filterTopN_version_mem h t n w q hq
      have h1 : ((filterTopN (h :: t) n w).map HistoryPoint.version).dedup.length ≤
          tvs.length :=
        length_le_of_nodup_subset (List.nodup_dedup _) hsub1
      have h2 : tvs.length ≤ tops.length :=
        length_le_of_nodup_subset (topVersionsInOrderOf_nodup _ _)
          (topVersionsInOrderOf_subset _ _)
      have h3 : ((tops.length : Nat) : Int) ≤ n := topVersionsOf_length_le _ _ hn
      calc (((filterTopN (h :: t) n w).map HistoryPoint.version).dedup.length : Int)
          ≤ (tvs.length : Int) := by exact_mod_cast h1
        _ ≤ (tops.length : Int) := by exact_mod_cast h2
        _ ≤ n := h3
    · intro p hp
      rw [filterTopN_cons] at hp
      obtain ⟨d', hd', hq'⟩ := List.mem_flatMap.mp hp
      have hpd : p.date = d' := zeroFillRow_date _ _ d' p hq'
      rw [List.mem_filter] at hd'
      constructor
      · have : ¬ d' < e := by simpa using hd'.2
        omega
      · obtain ⟨q, hqF, hqd⟩ := (datesAscendingOf_mem _ d').mp hd'.1
        rw [filteredPointsOf, List.mem_filter] at hqF
        have := pairwise_date_le_latest h t hsort q hqF.1
        omega

/-- Witness for C7 on the spec's concrete top-1 scenario. -/
theorem filterTopN_topn_window_witness :
    (((filterTopN [⟨1, "a", 10⟩, ⟨1, "b", 30⟩] 1 30).map
        HistoryPoint.version).dedup.length : Int) ≤ 1
      ∧ ∀ p ∈ filterTopN [⟨1, "a", 10⟩, ⟨1, "b", 30⟩] 1 30,
          earliestAllowableOf [⟨1, "a", 10⟩, ⟨1, "b", 30⟩] 30 ≤ p.date
            ∧ p.date ≤ latestDateOf [⟨1, "a", 10⟩, ⟨1, "b", 30⟩] :=
  filterTopN_topn_window [⟨1, "a", 10⟩, ⟨1, "b", 30⟩] 1 30
    (by simp) (by decide) (by norm_num) (by norm_num)

/-!
## C3 — behavior for non-positive `n`
-/

/-- C3 counterexample: with `n = 0` the slice `slice(-0)` is `slice(0)`,
which keeps *every* ranked version, so the result is the zero-filled
input, not the empty list. -/
theorem filterTopN_nonpositive_cex :
    filterTopN [⟨1, "a", 10⟩] 0 7 = [⟨1, "a", 10⟩] := by
  decide

/-- C3 amended: `filterTopN` with `n = 0` keeps every version seen in the
window (for negative `n`, `slice(-n)` drops the `-n` lowest-ranked
versions instead of keeping none); consequently on nonempty input with a
nonnegative window the result is nonempty rather than empty. -/
theorem filterTopN_zero_nonempty (pts : List HistoryPoint) (w : Int)
    (hne : pts ≠ []) (hw : 0 ≤ w) : filterTopN pts 0 w ≠ [] := by
  match pts with
  | [] => exact absurd rfl hne
  | h :: t =>
    set e := earliestAllowableOf (h :: t) w with he
    set lp := t.getLastD h with hlp
    have hlpmem : lp ∈ h :: t := getLastD_mem t h
    have helat : e ≤ lp.date := by
      have h1 := earliestAllowableOf_le_latest (h :: t) hw
      rw [latestDateOf_cons] at h1
      exact h1
    have hvw : lp.version ∈ topVersionsOf (h :: t) 0 e :=
      (mem_topVersionsOf_zero (h :: t) e lp.version).mpr ⟨lp, hlpmem, helat, rfl⟩
    have hlpF : lp ∈ filteredPointsOf (h :: t) (topVersionsOf (h :: t) 0 e) := by
      rw [filteredPointsOf, List.mem_filter]
      exact ⟨hlpmem, by simpa using hvw⟩
    have hdA : lp.date ∈ datesAscendingOf
        (filteredPointsOf (h :: t) (topVersionsOf (h :: t) 0 e)) :=
      (datesAscendingOf_mem _ lp.date).mpr ⟨lp, hlpF, rfl⟩
    have hkd : lp.date ∈ (datesAscendingOf
        (filteredPointsOf (h :: t) (topVersionsOf (h :: t) 0 e))).filter
          (fun date => !decide (date < e)) := by
      rw [List.mem_filter]
      exact ⟨hdA, by simp; omega⟩
    have htvs : lp.version ∈ keptVersionsOf (h :: t) 0 w := by
      rw [keptVersionsOf, topVersionsInOrderOf_mem]
      exact ⟨hvw, lp, hlpmem, rfl⟩
    have hrow : ∃ q, q ∈ zeroFillRow
        (filteredPointsOf (h :: t) (topVersionsOf (h :: t) 0 e))
        (keptVersionsOf (h :: t) 0 w) lp.date := by
      rw [zeroFillRow]
      exact ⟨_, List.mem_map_of_mem _ htvs⟩
    obtain ⟨q, hq⟩ := hrow
    apply List.ne_nil_of_mem (a := q)
    rw [filterTopN_cons]
    exact List.mem_flatMap.mpr ⟨lp.date, hkd, hq⟩

/-- Witness for the amended C3 at a concrete input. -/
theorem filterTopN_zero_nonempty_witness :
    filterTopN [⟨2, "a", 10⟩, ⟨3, "b", 4⟩] 0 7 ≠ [] :=
  filterTopN_zero_nonempty [⟨2, "a", 10⟩, ⟨3, "b", 4⟩] 7 (by simp) (by norm_num)

/-!
## C8 — pivot round-trip
-/

/-- Setting a key makes it readable. -/
lemma getVersionCount_set_self (cs : List (String × ℚ)) (version : String)
    (count : ℚ) :
    getVersionCount (setVersionCount cs version count) version = some count := by
  induction cs with
  | nil => simp [setVersionCount, getVersionCount]
  | cons entry rest ih =>
    obtain ⟨v, c⟩ := entry
    rw [setVersionCount]
    split
    · rename_i hv
      subst hv
      simp [getVersionCount]
    · rename_i hv
      rw [getVersionCount, List.find?_cons_of_neg _ (by simpa using hv), ← getVersionCount]
      exact ih

/-- Setting a key leaves the other keys untouched. -/
lemma getVersionCount_set_other (cs : List (String × ℚ)) (version : String)
    (count : ℚ) (v' : String) (h : v' ≠ version) :
    getVersionCount (setVersionCount cs version count) v' = getVersionCount cs v' := by
  induction cs with
  | nil =>
    rw [setVersionCount, getVersionCount,
      List.find?_cons_of_neg _ (by simpa using Ne.symm h)]
    rfl
  | cons entry rest ih =>
    obtain ⟨v, c⟩ := entry
    rw [setVersionCount]
    split
    · rename_i hv
      subst hv
      rw [getVersionCount, getVersionCount,
        List.find?_cons_of_neg _ (by simpa using (Ne.symm h)),
        List.find?_cons_of_neg _ (by simpa using (Ne.symm h))]
    · rename_i hv
      by_cases hv' : v = v'
      · subst hv'
        simp [getVersionCount]
      · rw [getVersionCount, getVersionCount,
          List.find?_cons_of_neg _ (by simpa using hv'),
          List.find?_cons_of_neg _ (by simpa using hv'), ← getVersionCount,
          ← getVersionCount, ih]

/-- After adding a point, its (date, version) cell holds its count. -/
lemma rowCount_add_self (data : List ChartRow) (version : String) (d : Int)
    (c : ℚ) : rowCount (addPointToData data version d c) d version = some c := by
  induction data with
  | nil =>
    rw [addPointToData, rowCount, findRow]
    simp [getVersionCount_set_self]
    simp [getVersionCount]
  | cons row rest ih =>
    rw [addPointToData]
    split
    · rename_i hd
      rw [rowCount, findRow, List.find?_cons_of_pos _ (by simpa using hd)]
      simp [getVersionCount_set_self]
    · rename_i hd
      rw [rowCount, findRow, List.find?_cons_of_neg _ (by simpa using hd)]
      exact ih

/-- Adding a point does not disturb any other (date, version) cell. -/
lemma rowCount_add_other (data : List ChartRow) (version : String) (d' : Int)
    (c : ℚ) (d : Int) (v : String) (h : d' ≠ d ∨ version ≠ v) :
    rowCount (addPointToData data version d' c) d v = rowCount data d v := by
  induction data with
  | nil =>
    rw [addPointToData, rowCount, findRow]
    rcases h with h | h
    · rw [List.find?_cons_of_neg _ (by simpa using h)]
      rfl
    · by_cases hd : d' = d
      · subst hd
        rw [List.find?_cons_of_pos _ (by simp)]
        rw [rowCount, findRow, List.find?_nil]
        simp only [Option.some_bind, Option.bind_none]
        rw [getVersionCount, List.find?_cons_of_neg _ (by simpa using h),
          List.find?_nil]
        rfl
      · rw [List.find?_cons_of_neg _ (by simpa using hd)]
        rfl
  | cons row rest ih =>
    rw [addPointToData]
    split
    · rename_i hrow
      by_cases hd : row.date = d
      · have hd'd : d' = d := hrow ▸ hd
        have hv : version ≠ v := by
          rcases h with h' | h'
          · exact absurd hd'd h'
          · exact h'
        rw [rowCount, findRow, List.find?_cons_of_pos _ (by simpa using hd),
          rowCount, findRow, List.find?_cons_of_pos _ (by simpa using hd)]
        simp [getVersionCount_set_other _ _ _ _ (Ne.symm hv)]
      · rw [rowCount, findRow, List.find?_cons_of_neg _ (by simpa using hd),
          rowCount, findRow, List.find?_cons_of_neg _ (by simpa using hd)]
    · rename_i hrow
      by_cases hd : row.date = d
      · rw [rowCount, findRow, List.find?_cons_of_pos _ (by simpa using hd),
          rowCount, findRow, List.find?_cons_of_pos _ (by simpa using hd)]
      · rw [rowCount, findRow, List.find?_cons_of_neg _ (by simpa using hd),
          rowCount, findRow, List.find?_cons_of_neg _ (by simpa using hd)]
        exact ih

/-- One version's inner loop leaves a cell unchanged when no processed
point targets it. -/
lemma pivot_inner_preserves (version : String) (l : List HistoryPoint)
    (d : Int) (v : String)
    (h : ∀ q ∈ l, q.version = version → ¬(q.date = d ∧ version = v)) :
    ∀ data : List ChartRow,
    rowCount (l.foldl (fun data measurePoint =>
        if measurePoint.version = version then
          addPointToData data version measurePoint.date measurePoint.count
        else data) data) d v = rowCount data d v := by
  induction l with
  | nil => intro data; rfl
  | cons q l' ih =>
    intro data
    rw [List.foldl_cons]
    have hrec := ih (fun r hr => h r (by simp [hr]))
    split
    · rename_i hqv
      rw [hrec _]
      apply rowCount_add_other
      have := h q (by simp) hqv
      tauto
    · exact hrec data

/-- Processing a version's own points writes the (unique) point's count
into its cell. -/
lemma pivot_inner_sets (p : HistoryPoint) (l : List HistoryPoint)
    (hp : p ∈ l)
    (hpw : l.Pairwise (fun a b => a.date ≠ b.date ∨ a.version ≠ b.version)) :
    ∀ data : List ChartRow,
    rowCount (l.foldl (fun data measurePoint =>
        if measurePoint.version = p.version then
          addPointToData data p.version measurePoint.date measurePoint.count
        else data) data) p.date p.version = some p.count := by
  induction l with
  | nil => exact absurd hp (List.not_mem_nil p)
  | cons q l' ih =>
    intro data
    rw [List.pairwise_cons] at hpw
    rw [List.foldl_cons]
    rcases List.mem_cons.mp hp with rfl | hp'
    · rw [if_pos rfl]
      rw [pivot_inner_preserves p.version l' p.date p.version
        (fun r hr hrv => by
          rcases hpw.1 r hr with hne | hne
          · exact fun hc => hne hc.1.symm
          · exact absurd hrv.symm hne) _]
      exact rowCount_add_self data p.version p.date p.count
    · exact ih hp' hpw.2 _

/-- Later versions of the outer loop never touch an earlier version's
cells. -/
lemma pivot_outer_preserves (datapoints : List HistoryPoint)
    (versions : List String) (d : Int) (v : String) (hv : v ∉ versions) :
    ∀ data : List ChartRow,
    rowCount (versions.foldl (fun data version =>
        datapoints.foldl (fun data measurePoint =>
          if measurePoint.version = version then
            addPointToData data version measurePoint.date measurePoint.count
          else data) data) data) d v = rowCount data d v := by
  induction versions with
  | nil => intro data; rfl
  | cons ver rest ih =>
    intro data
    rw [List.foldl_cons]
    rw [ih (fun hc => hv (by simp [hc]))]
    apply pivot_inner_preserves
    intro q _ _
    intro hc
    exact hv (by simp [hc.2])

/-- Membership in `allVersionsArr`. -/
lemma allVersionsArr_mem (datapoints : List HistoryPoint) (v : String) :
    v ∈ allVersionsArr datapoints ↔ ∃ p ∈ datapoints, p.version = v := by
  rw [allVersionsArr]
  have : ∀ (acc : List String),
      v ∈ datapoints.foldl (fun acc point =>
        if point.version ∈ acc then acc else acc ++ [point.version]) acc ↔
        v ∈ acc ∨ ∃ p ∈ datapoints, p.version = v := by
    induction datapoints with
    | nil => simp
    | cons q ps ih =>
      intro acc
      rw [List.foldl_cons]
      by_cases hq : q.version ∈ acc
      · rw [if_pos hq, ih]
        constructor
        · rintro (h | ⟨p, hp, hpd⟩)
          · exact Or.inl h
          · exact Or.inr ⟨p, by simp [hp], hpd⟩
        · rintro (h | ⟨p, hp, hpd⟩)
          · exact Or.inl h
          · rcases List.mem_cons.mp hp with rfl | hp'
            · exact Or.inl (hpd ▸ hq)
            · exact Or.inr ⟨p, hp', hpd⟩
      · rw [if_neg hq, ih]
        constructor
        · rintro (h | ⟨p, hp, hpd⟩)
          · rcases List.mem_append.mp h with h' | h'
            · exact Or.inl h'
            · rw [List.mem_singleton] at h'
              exact Or.inr ⟨q, by simp, h'.symm⟩
          · exact Or.inr ⟨p, by simp [hp], hpd⟩
        · rintro (h | ⟨p, hp, hpd⟩)
          · exact Or.inl (List.mem_append_left _ h)
          · rcases List.mem_cons.mp hp with rfl | hp'
            · exact Or.inl (List.mem_append_right _ (by simp [hpd]))
            · exact Or.inr ⟨p, hp', hpd⟩
  rw [this []]
  simp

/-- `allVersionsArr` is duplicate-free. -/
lemma allVersionsArr_nodup (datapoints : List HistoryPoint) :
    (allVersionsArr datapoints).Nodup := by
  rw [allVersionsArr]
  have : ∀ (acc : List String), acc.Nodup →
      (datapoints.foldl (fun acc point =>
        if point.version ∈ acc then acc else acc ++ [point.version]) acc).Nodup := by
    induction datapoints with
    | nil => exact fun acc h => h
    | cons q ps ih =>
      intro acc hacc
      rw [List.foldl_cons]
      split
      · exact ih acc hacc
      · rename_i hq
        refine ih _ ?_
        rw [List.nodup_append]
        exact ⟨hacc, List.nodup_singleton _,
          fun x hx => by rw [List.mem_singleton]; rintro rfl; exact hq hx⟩
  exact this [] List.nodup_nil

/-- C8 counterexample: a duplicated (date, version) pair is resolved
last-write-wins, so the first input point's count 5 is not recoverable —
the only row with date 1 maps "a" to 7. -/
theorem pivot_round_trip_cex :
    pivot [⟨1, "a", 5⟩, ⟨1, "a", 7⟩] = [⟨1, [("a", 7)]⟩]
      ∧ rowCount (pivot [⟨1, "a", 5⟩, ⟨1, "a", 7⟩]) 1 "a" = some 7 := by
  constructor <;> decide

/-- C8 amended: for every input list with no duplicated (date, version)
pair, the pivoted data's row for a point's date maps the point's version
to exactly its count. -/
theorem pivot_round_trip (datapoints : List HistoryPoint)
    (hnd : datapoints.Pairwise (fun a b => a.date ≠ b.date ∨ a.version ≠ b.version))
    (p : HistoryPoint) (hp : p ∈ datapoints) :
    rowCount (pivot datapoints) p.date p.version = some p.count := by
  have hvmem : p.version ∈ allVersionsArr datapoints :=
    (allVersionsArr_mem datapoints p.version).mpr ⟨p, hp, rfl⟩
  obtain ⟨s, t2, hsplit⟩ := List.append_of_mem hvmem
  have hnodup := allVersionsArr_nodup datapoints
  rw [hsplit] at hnodup
  have hvt2 : p.version ∉ t2 := by
    have := List.Nodup.of_append_right hnodup
    rw [List.nodup_cons] at this
    exact this.1
  rw [pivot, hsplit, List.foldl_append, List.foldl_cons]
  rw [pivot_outer_preserves datapoints t2 p.date p.version hvt2]
  exact pivot_inner_sets p datapoints hp hnd _

/-- Witness for the amended C8 at a concrete duplicate-free input. -/
theorem pivot_round_trip_witness :
    rowCount (pivot [⟨1, "a", 5⟩, ⟨1, "b", 3⟩]) 1 "a" = some 5 :=
  pivot_round_trip [⟨1, "a", 5⟩, ⟨1, "b", 3⟩] (by decide) ⟨1, "a", 5⟩ (by decide)
